import Mathlib

/-!
Shallow embedding of `orchestrationengine.py` (class `OrchestrationEngine`)
from the HyperEngine repository, together with proofs about its registry,
tick loop and fault policy.

Modelling conventions:
* The shared world state dictionary becomes the structure `WorldState`;
  simulated time is modelled with `ℚ` (Python uses floats, but the claims
  under study are about the additive structure of the tick arithmetic, not
  about rounding).
* A component (`BaseEngine` subclass) is modelled by `EngineSpec`: a name,
  a priority and three hook bodies.  A hook body is a list of `Act`
  instructions executed in order; an instruction can mutate the world
  state, raise an exception (`Act.raiseErr`, carrying a numeric code that
  identifies the exception object), or call back into the orchestrator
  (`register_engine` / `unregister_engine`), exactly the capabilities the
  claims exercise.
* Exceptions are modelled by the `Option ℕ` component of a result: a hook
  or method call returns `(s, none)` on normal return and `(s, some c)`
  when exception `c` is propagating; the state `s` is the state at that
  moment (Python exceptions do not roll back mutations).
* Because a hook can call `register_engine`, which runs the new engine's
  `on_register` hook, execution is recursive; the interpreter `exec` is
  indexed by a fuel parameter and returns `none` when the fuel runs out.
  Infinite recursion in the Python code (e.g. `stop` re-entered from
  `_handle_engine_error`) shows up as `exec fuel … = none` for every fuel.
* Two pieces of ghost instrumentation are added (they influence nothing):
  `RegEngine.idx` records the order in which engines were registered
  (`OState.nextIdx` is the counter), and `OState.calls` is a log of every
  `step` / `on_shutdown` hook invocation, used to state "is invoked
  exactly once / in this order" properties.
* `print` / `traceback` logging calls in the source are not modelled.
-/

/-- The shared world state dictionary created in `OrchestrationEngine.__init__`
(lines 65-71): keys time, tick, entities, events and meta.  Entities and meta are string-keyed stores of abstract numeric payloads, events
a list of abstract numeric event records. -/
structure WorldState where
  time : ℚ
  tick : ℕ
  entities : List (String × ℕ)
  events : List ℕ
  meta : List (String × ℕ)

/-- The initial world state of `__init__`. -/
def init_world : WorldState :=
  { time := 0, tick := 0, entities := [], events := [], meta := [] }

mutual
/-- One instruction of a hook body.  `appendEvent` and `incMeta` mutate the
world state (the ways components mutate shared state that the claims need),
`raiseErr c` raises exception `c`, and `registerAct` / `unregisterAct` call
back into the orchestrator's engine-management API. -/
inductive Act where
  | appendEvent : ℕ → Act
  | incMeta : String → Act
  | raiseErr : ℕ → Act
  | registerAct : EngineSpec → Act
  | unregisterAct : String → Act

/-- A component implementing the `BaseEngine` contract: `name`, `priority`,
and the bodies of `on_register`, `step` and `on_shutdown`. -/
inductive EngineSpec where
  | mk : String → Int → List Act → List Act → List Act → EngineSpec
end

/-- The `name` attribute of a `BaseEngine`. -/
def EngineSpec.name : EngineSpec → String
  | .mk n _ _ _ _ => n

/-- The `priority` attribute of a `BaseEngine` (lower runs earlier). -/
def EngineSpec.priority : EngineSpec → Int
  | .mk _ p _ _ _ => p

/-- The body of the `on_register` hook. -/
def EngineSpec.on_register : EngineSpec → List Act
  | .mk _ _ r _ _ => r

/-- The body of the `step` hook. -/
def EngineSpec.step : EngineSpec → List Act
  | .mk _ _ _ st _ => st

/-- The body of the `on_shutdown` hook. -/
def EngineSpec.on_shutdown : EngineSpec → List Act
  | .mk _ _ _ _ sh => sh

/-- A registry entry: the engine plus the ghost registration index recording
when it was registered (used only to state the stable-ordering claims;
`self.engines.sort(key=lambda e: e.priority)` never looks at it). -/
structure RegEngine where
  spec : EngineSpec
  idx : ℕ

/-- Ghost log entry: one invocation of a component's `step` or `on_shutdown`
hook by the orchestrator. -/
inductive TEv where
  | stepCall : String → TEv
  | shutdownCall : String → TEv
deriving DecidableEq

/-- The state of an `OrchestrationEngine` instance: constructor parameters
(`tickRate`, `tick_duration`, `strict`), the mutable attributes `engines`,
`running`, `world_state`, and the ghost instrumentation `nextIdx` / `calls`. -/
structure OState where
  tickRate : ℚ
  tickDuration : ℚ
  strict : Bool
  engines : List RegEngine
  running : Bool
  world : WorldState
  nextIdx : ℕ
  calls : List TEv

/-- Constructor `OrchestrationEngine.__init__(tick_rate, strict)` (lines 53-71). -/
def init_state (tick_rate : ℚ) (strict : Bool) : OState :=
  { tickRate := tick_rate
    tickDuration := 1 / tick_rate
    strict := strict
    engines := []
    running := false
    world := init_world
    nextIdx := 0
    calls := [] }

/-- Incrementing a counter in the `meta` mapping (a representative in-place
mutation of the shared state that a component hook may perform). -/
def bumpMeta : List (String × ℕ) → String → List (String × ℕ)
  | [], k => [(k, 1)]
  | (k', v) :: rest, k =>
      if k' = k then (k', v + 1) :: rest else (k', v) :: bumpMeta rest k

/-- Stable insertion of an engine: it is placed after every entry whose
priority is less than or equal to its own.  Folding this over a list realises
exactly Python's stable `list.sort(key=lambda e: e.priority)` (a stable sort
by a key is unique as a function on lists). -/
def insertEngine (e : RegEngine) : List RegEngine → List RegEngine
  | [] => [e]
  | x :: xs =>
      if x.spec.priority ≤ e.spec.priority then x :: insertEngine e xs
      else e :: x :: xs

/-- Model of `self.engines.sort(key=lambda e: e.priority)` (line 85): Python's stable
sort by priority. -/
def sortEngines (l : List RegEngine) : List RegEngine :=
  l.foldl (fun acc x => insertEngine x acc) []

/-- Method `OrchestrationEngine.unregister_engine` (lines 92-94):
`self.engines = [e for e in self.engines if e.name != engine_name]`. -/
def unregister_engine (s : OState) (engine_name : String) : OState :=
  { s with engines := s.engines.filter (fun e => e.spec.name != engine_name) }

/-- Method `OrchestrationEngine.list_engines` (lines 168-169). -/
def list_engines (s : OState) : List String :=
  s.engines.map (fun e => e.spec.name)

/-- Method `OrchestrationEngine.get_world_state` (lines 171-172): returns the
scheduler's world-state instance itself. -/
def get_world_state (s : OState) : WorldState :=
  s.world

/-- World-state mutation performed by `Act.appendEvent`
(`world_state["events"].append(ev)`). -/
def pushEvent (s : OState) (n : ℕ) : OState :=
  { s with world := { s.world with events := s.world.events ++ [n] } }

/-- World-state mutation performed by `Act.incMeta`. -/
def pushMeta (s : OState) (k : String) : OState :=
  { s with world := { s.world with meta := bumpMeta s.world.meta k } }

/-- Ghost: log a hook invocation. -/
def logCall (s : OState) (ev : TEv) : OState :=
  { s with calls := s.calls ++ [ev] }

/-- Lines 136-140 of `_tick`: `self.world_state["tick"] += 1`,
`self.world_state["time"] += self.tick_duration`,
`self.world_state["events"].clear()`. -/
def advance (s : OState) : OState :=
  { s with world :=
      { s.world with
          tick := s.world.tick + 1
          time := s.world.time + s.tickDuration
          events := [] } }

/-- The pending computation of the interpreter: a hook body being executed,
or one of the orchestrator's methods, or the suspended walk of one of the two
`for` loops.

* `hooks script` — executing the remaining instructions of a hook body;
* `reg e` — `register_engine(e)` (lines 77-90, after the `isinstance` check:
  every `EngineSpec` satisfies the contract by construction);
* `handleErr n c` — `_handle_engine_error(engine, error)` (lines 152-162)
  for the engine named `n` and exception `c`;
* `stopReq` — `stop()` (lines 105-112);
* `stopWalk l` — the `for engine in self.engines:` loop of `stop` with the
  entries `l` still to visit.  The loop iterates the list object bound at
  loop entry; `unregister_engine` rebinds `self.engines` to a fresh list, so
  eviction during shutdown never affects this walk (snapshot semantics).
  (The model assumes no hook *registers* engines during shutdown, which
  would mutate the iterated list object in place; no claim exercises that.)
* `tickWalk l` — the `for engine in list(self.engines):` loop of `_tick`
  (line 142), which explicitly walks a snapshot copy. -/
inductive Req where
  | hooks : List Act → Req
  | reg : EngineSpec → Req
  | handleErr : String → ℕ → Req
  | stopReq : Req
  | stopWalk : List RegEngine → Req
  | tickReq : Req
  | tickWalk : List RegEngine → Req

/-- The fuel-indexed interpreter of `OrchestrationEngine`.  Returns `none`
when the fuel is exhausted, `some (s, none)` on normal return with state `s`,
and `some (s, some c)` when exception `c` propagates to the caller. -/
def exec : ℕ → Req → OState → Option (OState × Option ℕ)
  | 0, _, _ => none
  | _ + 1, .hooks [], s => some (s, none)
  | f + 1, .hooks (.appendEvent n :: rest), s => exec f (.hooks rest) (pushEvent s n)
  | f + 1, .hooks (.incMeta k :: rest), s => exec f (.hooks rest) (pushMeta s k)
  | _ + 1, .hooks (.raiseErr c :: _), s => some (s, some c)
  | f + 1, .hooks (.registerAct e :: rest), s =>
      match exec f (.reg e) s with
      | none => none
      | some (s', some c) => some (s', some c)
      | some (s', none) => exec f (.hooks rest) s'
  | f + 1, .hooks (.unregisterAct n :: rest), s =>
      exec f (.hooks rest) (unregister_engine s n)
  | f + 1, .reg e, s =>
      let s1 : OState :=
        { s with
            engines := sortEngines (s.engines ++ [⟨e, s.nextIdx⟩])
            nextIdx := s.nextIdx + 1 }
      match exec f (.hooks e.on_register) s1 with
      | none => none
      | some (s2, none) => some (s2, none)
      | some (s2, some c) => exec f (.handleErr e.name c) s2
  | f + 1, .handleErr n c, s =>
      if s.strict then
        match exec f .stopReq s with
        | none => none
        | some (s2, none) => some (s2, some c)
        | some (s2, some c2) => some (s2, some c2)
      else some (unregister_engine s n, none)
  | f + 1, .stopReq, s => exec f (.stopWalk s.engines) { s with running := false }
  | _ + 1, .stopWalk [], s => some (s, none)
  | f + 1, .stopWalk (re :: rest), s =>
      match exec f (.hooks re.spec.on_shutdown) (logCall s (.shutdownCall re.spec.name)) with
      | none => none
      | some (s1, none) => exec f (.stopWalk rest) s1
      | some (s1, some c) =>
          match exec f (.handleErr re.spec.name c) s1 with
          | none => none
          | some (s2, none) => exec f (.stopWalk rest) s2
          | some (s2, some c2) => some (s2, some c2)
  | f + 1, .tickReq, s => exec f (.tickWalk (advance s).engines) (advance s)
  | _ + 1, .tickWalk [], s => some (s, none)
  | f + 1, .tickWalk (re :: rest), s =>
      match exec f (.hooks re.spec.step) (logCall s (.stepCall re.spec.name)) with
      | none => none
      | some (s1, none) => exec f (.tickWalk rest) s1
      | some (s1, some c) =>
          match exec f (.handleErr re.spec.name c) s1 with
          | none => none
          | some (s2, none) => exec f (.tickWalk rest) s2
          | some (s2, some c2) => some (s2, some c2)

/-- Method `OrchestrationEngine.register_engine` (lines 77-90). -/
def register_engine (fuel : ℕ) (s : OState) (e : EngineSpec) : Option (OState × Option ℕ) :=
  exec fuel (.reg e) s

/-- Method `OrchestrationEngine._handle_engine_error` (lines 152-162). -/
def handle_engine_error (fuel : ℕ) (s : OState) (n : String) (c : ℕ) :
    Option (OState × Option ℕ) :=
  exec fuel (.handleErr n c) s

/-- Method `OrchestrationEngine.stop` (lines 105-112). -/
def stop (fuel : ℕ) (s : OState) : Option (OState × Option ℕ) :=
  exec fuel .stopReq s

/-- Method `OrchestrationEngine._tick` (lines 135-146). -/
def tick (fuel : ℕ) (s : OState) : Option (OState × Option ℕ) :=
  exec fuel .tickReq s

/-- Method `OrchestrationEngine.step_once` (lines 114-116): `self._tick()`. -/
def step_once (fuel : ℕ) (s : OState) : Option (OState × Option ℕ) :=
  tick fuel s

/-- A top-level call of the engine-management API, used to quantify over
"every sequence of `register_engine` / `unregister_engine` calls". -/
inductive Op where
  | regOp : EngineSpec → Op
  | unregOp : String → Op

/-- Run a sequence of top-level API calls.  A raised exception aborts the
remaining calls (it would propagate to the caller), the state being kept. -/
def runOps : ℕ → OState → List Op → Option (OState × Option ℕ)
  | 0, _, _ => none
  | _ + 1, s, [] => some (s, none)
  | f + 1, s, .regOp e :: rest =>
      match register_engine f s e with
      | none => none
      | some (s', some c) => some (s', some c)
      | some (s', none) => runOps f s' rest
  | f + 1, s, .unregOp n :: rest => runOps f (unregister_engine s n) rest

/-- Default result used to name the value of a concrete run in closed
statements. -/
def dflt : OState × Option ℕ := (init_state 1 true, none)

/-! ## Hook classification predicates -/

/-- Hook bodies that only mutate the world state: no raise, no registry call. -/
def benignAct : Act → Bool
  | .appendEvent _ => true
  | .incMeta _ => true
  | _ => false

/-- Every instruction of the body is benign. -/
def benignActs (l : List Act) : Bool := l.all benignAct

/-- Step bodies that never raise: world-state mutation, unregistration, and
registration of engines whose `on_register` is benign are allowed. -/
def stepOk : Act → Bool
  | .appendEvent _ => true
  | .incMeta _ => true
  | .raiseErr _ => false
  | .registerAct e => benignActs e.on_register
  | .unregisterAct _ => true

/-- Every instruction of the step body is `stepOk`. -/
def stepOkActs (l : List Act) : Bool := l.all stepOk

/-! ## Frame relations -/

/-- Frame of a benign hook execution: everything but the events / entities /
meta parts of the world state is untouched. -/
def HFrame (s t : OState) : Prop :=
  t.engines = s.engines ∧ t.nextIdx = s.nextIdx ∧ t.running = s.running ∧
  t.strict = s.strict ∧ t.tickRate = s.tickRate ∧ t.tickDuration = s.tickDuration ∧
  t.calls = s.calls ∧ t.world.tick = s.world.tick ∧ t.world.time = s.world.time

/-- Frame of a raise-free step execution: the registry may change, the
scheduler's control data may not. -/
def SFrame (s t : OState) : Prop :=
  t.running = s.running ∧ t.strict = s.strict ∧ t.tickRate = s.tickRate ∧
  t.tickDuration = s.tickDuration ∧ t.calls = s.calls ∧
  t.world.tick = s.world.tick ∧ t.world.time = s.world.time

theorem hframe_refl (s : OState) : HFrame s s :=
  ⟨rfl, rfl, rfl, rfl, rfl, rfl, rfl, rfl, rfl⟩

theorem hframe_trans {s t u : OState} (h1 : HFrame s t) (h2 : HFrame t u) : HFrame s u := by
  obtain ⟨a1, a2, a3, a4, a5, a6, a7, a8, a9⟩ := h1
  obtain ⟨b1, b2, b3, b4, b5, b6, b7, b8, b9⟩ := h2
  exact ⟨b1.trans a1, b2.trans a2, b3.trans a3, b4.trans a4, b5.trans a5,
    b6.trans a6, b7.trans a7, b8.trans a8, b9.trans a9⟩

theorem sframe_refl (s : OState) : SFrame s s :=
  ⟨rfl, rfl, rfl, rfl, rfl, rfl, rfl⟩

theorem sframe_trans {s t u : OState} (h1 : SFrame s t) (h2 : SFrame t u) : SFrame s u := by
  obtain ⟨a1, a2, a3, a4, a5, a6, a7⟩ := h1
  obtain ⟨b1, b2, b3, b4, b5, b6, b7⟩ := h2
  exact ⟨b1.trans a1, b2.trans a2, b3.trans a3, b4.trans a4, b5.trans a5,
    b6.trans a6, b7.trans a7⟩

theorem hframe_sframe {s t : OState} (h : HFrame s t) : SFrame s t :=
  ⟨h.2.2.1, h.2.2.2.1, h.2.2.2.2.1, h.2.2.2.2.2.1, h.2.2.2.2.2.2.1,
    h.2.2.2.2.2.2.2.1, h.2.2.2.2.2.2.2.2⟩

theorem hframe_pushEvent (s : OState) (n : ℕ) : HFrame s (pushEvent s n) :=
  ⟨rfl, rfl, rfl, rfl, rfl, rfl, rfl, rfl, rfl⟩

theorem hframe_pushMeta (s : OState) (k : String) : HFrame s (pushMeta s k) :=
  ⟨rfl, rfl, rfl, rfl, rfl, rfl, rfl, rfl, rfl⟩

theorem sframe_unregister (s : OState) (n : String) : SFrame s (unregister_engine s n) :=
  ⟨rfl, rfl, rfl, rfl, rfl, rfl, rfl⟩

/-! ## Behaviour of hook execution -/

/-- A benign hook body returns normally and changes nothing besides the
events / entities / meta parts of the world state. -/
theorem exec_hooks_benign :
    ∀ (f : ℕ) (script : List Act) (s : OState) (r : OState × Option ℕ),
      benignActs script = true → exec f (.hooks script) s = some r →
      r.2 = none ∧ HFrame s r.1 := by
  intro f
  induction f with
  | zero => intro script s r _ h; simp [exec] at h
  | succ f ih =>
    intro script s r hb h
    cases script with
    | nil =>
      simp [exec] at h
      cases h; exact ⟨rfl, hframe_refl s⟩
    | cons a rest =>
      cases a with
      | appendEvent n =>
        simp [benignActs, List.all_cons, benignAct] at hb
        have := ih rest (pushEvent s n) r (by simpa [benignActs] using hb) (by simpa [exec] using h)
        exact ⟨this.1, hframe_trans (hframe_pushEvent s n) this.2⟩
      | incMeta k =>
        simp [benignActs, List.all_cons, benignAct] at hb
        have := ih rest (pushMeta s k) r (by simpa [benignActs] using hb) (by simpa [exec] using h)
        exact ⟨this.1, hframe_trans (hframe_pushMeta s k) this.2⟩
      | raiseErr c => simp [benignActs, List.all_cons, benignAct] at hb
      | registerAct e => simp [benignActs, List.all_cons, benignAct] at hb
      | unregisterAct n => simp [benignActs, List.all_cons, benignAct] at hb

/-- A hook body whose leading benign instructions are followed by a raise
aborts at the raise: the exception propagates and only the leading benign
instructions have run. -/
theorem exec_hooks_raise :
    ∀ (f : ℕ) (p : List Act) (c : ℕ) (q : List Act) (s : OState) (r : OState × Option ℕ),
      benignActs p = true → exec f (.hooks (p ++ Act.raiseErr c :: q)) s = some r →
      r.2 = some c ∧ HFrame s r.1 := by
  intro f
  induction f with
  | zero => intro p c q s r _ h; simp [exec] at h
  | succ f ih =>
    intro p c q s r hb h
    cases p with
    | nil =>
      simp [exec] at h
      cases h; exact ⟨rfl, hframe_refl s⟩
    | cons a p' =>
      cases a with
      | appendEvent n =>
        simp [benignActs, List.all_cons, benignAct] at hb
        have := ih p' c q (pushEvent s n) r (by simpa [benignActs] using hb) (by simpa [exec] using h)
        exact ⟨this.1, hframe_trans (hframe_pushEvent s n) this.2⟩
      | incMeta k =>
        simp [benignActs, List.all_cons, benignAct] at hb
        have := ih p' c q (pushMeta s k) r (by simpa [benignActs] using hb) (by simpa [exec] using h)
        exact ⟨this.1, hframe_trans (hframe_pushMeta s k) this.2⟩
      | raiseErr c' => simp [benignActs, List.all_cons, benignAct] at hb
      | registerAct e => simp [benignActs, List.all_cons, benignAct] at hb
      | unregisterAct n => simp [benignActs, List.all_cons, benignAct] at hb

/-- Calling `register_engine` with a benign `on_register` hook: the engine is
appended and the registry stably re-sorted, the hook runs, no exception
escapes. -/
theorem exec_reg_benign (f : ℕ) (e : EngineSpec) (s : OState) (r : OState × Option ℕ)
    (hb : benignActs e.on_register = true) (h : exec f (.reg e) s = some r) :
    r.2 = none ∧ SFrame s r.1 ∧
    r.1.engines = sortEngines (s.engines ++ [⟨e, s.nextIdx⟩]) ∧
    r.1.nextIdx = s.nextIdx + 1 := by
  cases f with
  | zero => simp [exec] at h
  | succ f =>
    simp only [exec] at h
    split at h
    · exact absurd h (by simp)
    · rename_i s2 heq
      cases h
      have := exec_hooks_benign f _ _ _ hb heq
      obtain ⟨-, he, hn, hru, hst, htr, htd, hc, hwt, hwm⟩ := this
      exact ⟨rfl, ⟨hru, hst, htr, htd, hc, hwt, hwm⟩, he, hn⟩
    · rename_i s2 c heq
      have := exec_hooks_benign f _ _ _ hb heq
      simp at this

/-- A `stepOk` hook body returns normally and leaves the scheduler's control
data (running flag, fault mode, rates, call log, tick, time) untouched; the
registry may change through `register_engine` / `unregister_engine` calls. -/
theorem exec_hooks_stepOk :
    ∀ (f : ℕ) (script : List Act) (s : OState) (r : OState × Option ℕ),
      stepOkActs script = true → exec f (.hooks script) s = some r →
      r.2 = none ∧ SFrame s r.1 := by
  intro f
  induction f with
  | zero => intro script s r _ h; simp [exec] at h
  | succ f ih =>
    intro script s r hb h
    cases script with
    | nil =>
      simp [exec] at h
      cases h; exact ⟨rfl, sframe_refl s⟩
    | cons a rest =>
      simp only [stepOkActs, List.all_cons, Bool.and_eq_true] at hb
      cases a with
      | appendEvent n =>
        have := ih rest (pushEvent s n) r (hb.2) (by simpa [exec] using h)
        exact ⟨this.1, sframe_trans (hframe_sframe (hframe_pushEvent s n)) this.2⟩
      | incMeta k =>
        have := ih rest (pushMeta s k) r (hb.2) (by simpa [exec] using h)
        exact ⟨this.1, sframe_trans (hframe_sframe (hframe_pushMeta s k)) this.2⟩
      | raiseErr c => simp [stepOk] at hb
      | registerAct e =>
        simp only [exec] at h
        split at h
        · exact absurd h (by simp)
        · rename_i s2 c heq
          have := exec_reg_benign f e s _ (by simpa [stepOk] using hb.1) heq
          simp at this
        · rename_i s2 heq
          have hreg := exec_reg_benign f e s _ (by simpa [stepOk] using hb.1) heq
          have := ih rest s2 r hb.2 h
          exact ⟨this.1, sframe_trans hreg.2.1 this.2⟩
      | unregisterAct n =>
        have := ih rest (unregister_engine s n) r hb.2 (by simpa [exec] using h)
        exact ⟨this.1, sframe_trans (sframe_unregister s n) this.2⟩

/-- State relation produced by walking the shutdown loop of `stop` over the
entries `l`: one `on_shutdown` invocation is logged per entry, in order, and
everything but the world's events / entities / meta is otherwise untouched. -/
def ShutFrame (l : List RegEngine) (s t : OState) : Prop :=
  t.engines = s.engines ∧ t.nextIdx = s.nextIdx ∧ t.running = s.running ∧
  t.strict = s.strict ∧ t.tickRate = s.tickRate ∧ t.tickDuration = s.tickDuration ∧
  t.calls = s.calls ++ l.map (fun re => TEv.shutdownCall re.spec.name) ∧
  t.world.tick = s.world.tick ∧ t.world.time = s.world.time

/-- The `for engine in self.engines:` loop of `stop`, when every visited
engine's `on_shutdown` is benign: each hook is invoked exactly once, in
order. -/
theorem exec_stopWalk_benign :
    ∀ (f : ℕ) (l : List RegEngine) (s : OState) (r : OState × Option ℕ),
      (∀ re ∈ l, benignActs re.spec.on_shutdown = true) →
      exec f (.stopWalk l) s = some r →
      r.2 = none ∧ ShutFrame l s r.1 := by
  intro f
  induction f with
  | zero => intro l s r _ h; simp [exec] at h
  | succ f ih =>
    intro l s r hb h
    cases l with
    | nil =>
      simp [exec] at h
      cases h
      exact ⟨rfl, rfl, rfl, rfl, rfl, rfl, rfl, by simp, rfl, rfl⟩
    | cons re rest =>
      simp only [exec] at h
      split at h
      · exact absurd h (by simp)
      · rename_i s1 heq
        have h1 := exec_hooks_benign f _ _ _ (hb re (by simp)) heq
        have h2 := ih rest s1 r (fun x hx => hb x (by simp [hx])) h
        obtain ⟨-, e1, e2, e3, e4, e5, e6, e7, e8, e9⟩ := h1
        obtain ⟨herr, g1, g2, g3, g4, g5, g6, g7, g8, g9⟩ := h2
        refine ⟨herr, g1.trans e1, g2.trans e2, g3.trans e3, g4.trans e4,
          g5.trans e5, g6.trans e6, ?_, g8.trans e8, g9.trans e9⟩
        rw [g7, e7]
        simp [logCall]
      · rename_i s1 c heq
        have h1 := exec_hooks_benign f _ _ _ (hb re (by simp)) heq
        simp at h1

/-- Behaviour of `stop()` when every registered engine's `on_shutdown` is benign: running
becomes false, the registry is untouched, and each engine's `on_shutdown` is
invoked exactly once, in registry order. -/
theorem exec_stop_benign (f : ℕ) (s : OState) (r : OState × Option ℕ)
    (hb : ∀ re ∈ s.engines, benignActs re.spec.on_shutdown = true)
    (h : exec f .stopReq s = some r) :
    r.2 = none ∧ r.1.running = false ∧ r.1.engines = s.engines ∧
    r.1.nextIdx = s.nextIdx ∧ r.1.strict = s.strict ∧ r.1.tickRate = s.tickRate ∧
    r.1.tickDuration = s.tickDuration ∧
    r.1.calls = s.calls ++ s.engines.map (fun re => TEv.shutdownCall re.spec.name) ∧
    r.1.world.tick = s.world.tick ∧ r.1.world.time = s.world.time := by
  cases f with
  | zero => simp [exec] at h
  | succ f =>
    simp only [exec] at h
    have := exec_stopWalk_benign f s.engines { s with running := false } r hb h
    obtain ⟨herr, g1, g2, g3, g4, g5, g6, g7, g8, g9⟩ := this
    exact ⟨herr, g3, g1, g2, g4, g5, g6, g7, g8, g9⟩

/-- Behaviour of `_handle_engine_error` in strict mode with benign `on_shutdown` hooks:
it performs an orderly `stop()` and then re-raises the original exception. -/
theorem exec_handleErr_strict (f : ℕ) (n : String) (c : ℕ) (s : OState)
    (r : OState × Option ℕ) (hstrict : s.strict = true)
    (hb : ∀ re ∈ s.engines, benignActs re.spec.on_shutdown = true)
    (h : exec f (.handleErr n c) s = some r) :
    r.2 = some c ∧ r.1.running = false ∧ r.1.engines = s.engines ∧
    r.1.nextIdx = s.nextIdx ∧ r.1.strict = s.strict ∧ r.1.tickRate = s.tickRate ∧
    r.1.tickDuration = s.tickDuration ∧
    r.1.calls = s.calls ++ s.engines.map (fun re => TEv.shutdownCall re.spec.name) ∧
    r.1.world.tick = s.world.tick ∧ r.1.world.time = s.world.time := by
  cases f with
  | zero => simp [exec] at h
  | succ f =>
    simp only [exec, hstrict, if_true] at h
    split at h
    · exact absurd h (by simp)
    · rename_i s2 heq
      cases h
      have := exec_stop_benign f s _ hb heq
      obtain ⟨-, g2, g3, g4, g5, g6, g7, g8, g9, g10⟩ := this
      exact ⟨rfl, g2, g3, g4, g5, g6, g7, g8, g9, g10⟩
    · rename_i s2 c2 heq
      have := exec_stop_benign f s _ hb heq
      simp at this

/-- Behaviour of `_handle_engine_error` in isolated mode: the offending engine is evicted
by name and no exception is re-raised. -/
theorem exec_handleErr_isolated (f : ℕ) (n : String) (c : ℕ) (s : OState)
    (hstrict : s.strict = false) :
    exec (f + 1) (.handleErr n c) s = some (unregister_engine s n, none) := by
  simp [exec, hstrict]

/-- State relation produced by walking the tick loop over the snapshot `l`
when no step fails: one `step` invocation is logged per snapshot entry, in
order, and the scheduler's control data is untouched. -/
def StepsFrame (l : List RegEngine) (s t : OState) : Prop :=
  t.running = s.running ∧ t.strict = s.strict ∧ t.tickRate = s.tickRate ∧
  t.tickDuration = s.tickDuration ∧
  t.calls = s.calls ++ l.map (fun re => TEv.stepCall re.spec.name) ∧
  t.world.tick = s.world.tick ∧ t.world.time = s.world.time

/-- The `for engine in list(self.engines):` loop of `_tick`, when every
snapshot entry's `step` is raise-free: the step of every snapshot entry is
invoked exactly once, in snapshot order, regardless of how the steps
register or evict engines. -/
theorem exec_tickWalk_stepOk :
    ∀ (f : ℕ) (l : List RegEngine) (s : OState) (r : OState × Option ℕ),
      (∀ re ∈ l, stepOkActs re.spec.step = true) →
      exec f (.tickWalk l) s = some r →
      r.2 = none ∧ StepsFrame l s r.1 := by
  intro f
  induction f with
  | zero => intro l s r _ h; simp [exec] at h
  | succ f ih =>
    intro l s r hb h
    cases l with
    | nil =>
      simp [exec] at h
      cases h
      exact ⟨rfl, rfl, rfl, rfl, rfl, by simp, rfl, rfl⟩
    | cons re rest =>
      simp only [exec] at h
      split at h
      · exact absurd h (by simp)
      · rename_i s1 heq
        have h1 := exec_hooks_stepOk f _ _ _ (hb re (by simp)) heq
        have h2 := ih rest s1 r (fun x hx => hb x (by simp [hx])) h
        obtain ⟨-, e1, e2, e3, e4, e5, e6, e7⟩ := h1
        obtain ⟨herr, g1, g2, g3, g4, g5, g6, g7⟩ := h2
        refine ⟨herr, g1.trans e1, g2.trans e2, g3.trans e3, g4.trans e4, ?_,
          g6.trans e6, g7.trans e7⟩
        rw [g5, e5]
        simp [logCall]
      · rename_i s1 c heq
        have h1 := exec_hooks_stepOk f _ _ _ (hb re (by simp)) heq
        simp at h1

/-! ## The registry ordering invariant -/

/-- Comparison used by `self.engines.sort(key=lambda e: e.priority)`. -/
def prioLE (a b : RegEngine) : Prop := a.spec.priority ≤ b.spec.priority

/-- Strict ascending order by `(priority, registration order)`. -/
def lexLT (a b : RegEngine) : Prop :=
  a.spec.priority < b.spec.priority ∨
    (a.spec.priority = b.spec.priority ∧ a.idx < b.idx)

instance : DecidableRel lexLT := fun a b =>
  decidable_of_iff
    (a.spec.priority < b.spec.priority ∨
      (a.spec.priority = b.spec.priority ∧ a.idx < b.idx)) Iff.rfl

theorem lexLT_prioLE {a b : RegEngine} (h : lexLT a b) : prioLE a b := by
  rcases h with h | ⟨h, -⟩
  · exact le_of_lt h
  · exact le_of_eq h

/-- Inserting with `insertEngine` is a permutation. -/
theorem insertEngine_perm (e : RegEngine) :
    ∀ l, List.Perm (insertEngine e l) (e :: l) := by
  intro l
  induction l with
  | nil => simp [insertEngine]
  | cons x xs ih =>
    simp only [insertEngine]
    split
    · exact (ih.cons x).trans (List.Perm.swap e x xs)
    · exact List.Perm.refl _

theorem foldl_insert_perm :
    ∀ (l acc : List RegEngine),
      List.Perm (List.foldl (fun a x => insertEngine x a) acc l) (acc ++ l) := by
  intro l
  induction l with
  | nil => intro acc; simp
  | cons x xs ih =>
    intro acc
    have h1 := ih (insertEngine x acc)
    have h2 := (insertEngine_perm x acc).append_right xs
    have h3 : List.Perm ((x :: acc) ++ xs) (acc ++ x :: xs) := by
      simpa using (@List.perm_middle _ x acc xs).symm
    exact (h1.trans h2).trans h3

/-- The modelled sort is a permutation (it reorders the registry only). -/
theorem sortEngines_perm (l : List RegEngine) : List.Perm (sortEngines l) l := by
  simpa using foldl_insert_perm l []

theorem insertEngine_append_of_le (e : RegEngine) :
    ∀ l, (∀ x ∈ l, prioLE x e) → insertEngine e l = l ++ [e] := by
  intro l
  induction l with
  | nil => intro _; simp [insertEngine]
  | cons x xs ih =>
    intro hle
    simp only [insertEngine]
    have hcond : x.spec.priority ≤ e.spec.priority := hle x (by simp)
    rw [if_pos hcond, ih (fun y hy => hle y (by simp [hy]))]
    simp

theorem foldl_insert_sorted :
    ∀ (l acc : List RegEngine), List.Pairwise prioLE (acc ++ l) →
      List.foldl (fun a x => insertEngine x a) acc l = acc ++ l := by
  intro l
  induction l with
  | nil => intro acc _; simp
  | cons x xs ih =>
    intro acc hp
    have hax : ∀ a ∈ acc, prioLE a x := by
      intro a ha
      exact (List.pairwise_append.mp hp).2.2 a ha x (by simp)
    simp only [List.foldl_cons]
    rw [insertEngine_append_of_le x acc hax, ih (acc ++ [x]) (by simpa using hp)]
    simp

/-- Sorting an already priority-sorted list is the identity. -/
theorem sortEngines_eq_self {l : List RegEngine} (h : List.Pairwise prioLE l) :
    sortEngines l = l := by
  simpa using foldl_insert_sorted l [] (by simpa using h)

/-- Appending one engine and re-sorting equals a stable insertion. -/
theorem sortEngines_append_one (l : List RegEngine) (e : RegEngine) :
    sortEngines (l ++ [e]) = insertEngine e (sortEngines l) := by
  unfold sortEngines
  rw [List.foldl_append]
  rfl

/-- Stable insertion of an entry with a fresh maximal registration index
preserves strict `(priority, registration order)` sortedness. -/
theorem insertEngine_pairwise (e : RegEngine) :
    ∀ l, List.Pairwise lexLT l → (∀ x ∈ l, x.idx < e.idx) →
      List.Pairwise lexLT (insertEngine e l) := by
  intro l
  induction l with
  | nil => intro _ _; simp [insertEngine, List.pairwise_cons]
  | cons x xs ih =>
    intro hp hidx
    simp only [insertEngine]
    rcases List.pairwise_cons.mp hp with ⟨hx, hxs⟩
    split
    · rename_i hle
      refine List.pairwise_cons.mpr ⟨?_, ih hxs (fun y hy => hidx y (by simp [hy]))⟩
      intro y hy
      have hmem : y = e ∨ y ∈ xs :=
        List.mem_cons.mp ((insertEngine_perm e xs).mem_iff.mp hy)
      rcases hmem with rfl | hmem
      · rcases lt_or_eq_of_le hle with hlt | heqp
        · exact Or.inl hlt
        · exact Or.inr ⟨heqp, hidx x (by simp)⟩
      · exact hx y hmem
    · rename_i hnle
      have hxe : e.spec.priority < x.spec.priority := lt_of_not_le hnle
      refine List.pairwise_cons.mpr ⟨?_, hp⟩
      intro y hy
      rcases List.mem_cons.mp hy with rfl | hmem
      · exact Or.inl hxe
      · exact Or.inl (lt_of_lt_of_le hxe (lexLT_prioLE (hx y hmem)))

/-- The scheduler's registry invariant: the registry is strictly ascending
by `(priority, registration order)` and every recorded registration index is
below the ghost counter. -/
def RegInv (s : OState) : Prop :=
  List.Pairwise lexLT s.engines ∧ ∀ re ∈ s.engines, re.idx < s.nextIdx

/-- The registry update performed by `register_engine` (append + stable sort
with a fresh registration index) preserves the ordering invariant. -/
theorem register_list_inv (l : List RegEngine) (e : EngineSpec) (n : ℕ)
    (hs : List.Pairwise lexLT l) (hbound : ∀ re ∈ l, re.idx < n) :
    List.Pairwise lexLT (sortEngines (l ++ [⟨e, n⟩])) ∧
      ∀ re ∈ sortEngines (l ++ [⟨e, n⟩]), re.idx < n + 1 := by
  have hps : List.Pairwise prioLE l := hs.imp lexLT_prioLE
  rw [sortEngines_append_one, sortEngines_eq_self hps]
  refine ⟨insertEngine_pairwise _ l hs hbound, ?_⟩
  intro re hre
  have hmem : re = ⟨e, n⟩ ∨ re ∈ l :=
    List.mem_cons.mp ((insertEngine_perm ⟨e, n⟩ l).mem_iff.mp hre)
  rcases hmem with rfl | hmem
  · exact Nat.lt_succ_self n
  · exact Nat.lt_succ_of_lt (hbound re hmem)

/-- Filtering the registry (`unregister_engine`) preserves the invariant. -/
theorem reginv_unregister {s : OState} (h : RegInv s) (n : String) :
    RegInv (unregister_engine s n) := by
  refine ⟨h.1.sublist (List.filter_sublist _), ?_⟩
  intro re hre
  exact h.2 re (List.mem_of_mem_filter hre)

/-! ## Master frame/invariant preservation over the interpreter -/

/-- Number of ticks performed directly by a pending request: `_tick` is the
only method that advances the clock. -/
def ticksOf : Req → ℕ
  | .tickReq => 1
  | _ => 0

/-- What every method of the orchestrator preserves: fault mode and rates
are constants, the tick counter and the clock advance only through `_tick`, and
the registry ordering invariant survives every registry update. -/
def MP (k : ℕ) (s t : OState) : Prop :=
  t.strict = s.strict ∧ t.tickRate = s.tickRate ∧ t.tickDuration = s.tickDuration ∧
  t.world.tick = s.world.tick + k ∧
  t.world.time = s.world.time + (k : ℚ) * s.tickDuration ∧
  (RegInv s → RegInv t)

theorem mp_refl (s : OState) : MP 0 s s := by
  refine ⟨rfl, rfl, rfl, by simp, by simp, fun h => h⟩

theorem mp_zero_trans {s t u : OState} (h1 : MP 0 s t) (h2 : MP k t u) : MP k s u := by
  obtain ⟨a1, a2, a3, a4, a5, a6⟩ := h1
  obtain ⟨b1, b2, b3, b4, b5, b6⟩ := h2
  refine ⟨b1.trans a1, b2.trans a2, b3.trans a3, ?_, ?_, fun h => b6 (a6 h)⟩
  · rw [b4, a4]; simp
  · rw [b5, a5, a3]; simp
theorem mp_trans_zero {s t u : OState} (h1 : MP k s t) (h2 : MP 0 t u) : MP k s u := by
  obtain ⟨a1, a2, a3, a4, a5, a6⟩ := h1
  obtain ⟨b1, b2, b3, b4, b5, b6⟩ := h2
  refine ⟨b1.trans a1, b2.trans a2, b3.trans a3, ?_, ?_, fun h => b6 (a6 h)⟩
  · rw [b4, a4]; simp
  · rw [b5, a5]; simp

theorem reginv_congr {s t : OState} (he : t.engines = s.engines)
    (hn : t.nextIdx = s.nextIdx) (h : RegInv s) : RegInv t := by
  refine ⟨he ▸ h.1, ?_⟩
  intro re hre
  rw [hn]
  exact h.2 re (he ▸ hre)

theorem mp_pushEvent (s : OState) (n : ℕ) : MP 0 s (pushEvent s n) :=
  ⟨rfl, rfl, rfl, by simp [pushEvent], by simp [pushEvent], reginv_congr rfl rfl⟩

theorem mp_pushMeta (s : OState) (k : String) : MP 0 s (pushMeta s k) :=
  ⟨rfl, rfl, rfl, by simp [pushMeta], by simp [pushMeta], reginv_congr rfl rfl⟩

theorem mp_logCall (s : OState) (ev : TEv) : MP 0 s (logCall s ev) :=
  ⟨rfl, rfl, rfl, by simp [logCall], by simp [logCall], reginv_congr rfl rfl⟩

theorem mp_running (s : OState) (b : Bool) : MP 0 s { s with running := b } :=
  ⟨rfl, rfl, rfl, by simp, by simp, reginv_congr rfl rfl⟩

theorem mp_unregister (s : OState) (n : String) : MP 0 s (unregister_engine s n) :=
  ⟨rfl, rfl, rfl, by simp [unregister_engine], by simp [unregister_engine],
    fun h => reginv_unregister h n⟩

theorem mp_advance (s : OState) : MP 1 s (advance s) :=
  ⟨rfl, rfl, rfl, by simp [advance], by simp [advance], reginv_congr rfl rfl⟩

theorem mp_reg_insert (s : OState) (e : EngineSpec) :
    MP 0 s
      { s with
          engines := sortEngines (s.engines ++ [⟨e, s.nextIdx⟩])
          nextIdx := s.nextIdx + 1 } := by
  refine ⟨rfl, rfl, rfl, by simp, by simp, ?_⟩
  intro h
  exact register_list_inv s.engines e s.nextIdx h.1 h.2

/-- Master lemma: whatever a method call or hook body does within the fuel
bound, the fault mode and rates are unchanged, the clock advances exactly by
the ticks the request itself performs, and the registry ordering invariant
is preserved — for arbitrary component behaviours. -/
theorem exec_mp :
    ∀ (f : ℕ) (req : Req) (s : OState) (r : OState × Option ℕ),
      exec f req s = some r → MP (ticksOf req) s r.1 := by
  intro f
  induction f with
  | zero => intro req s r h; simp [exec] at h
  | succ f ih =>
    intro req s r h
    cases req with
    | hooks script =>
      cases script with
      | nil => simp [exec] at h; cases h; exact mp_refl s
      | cons a rest =>
        cases a with
        | appendEvent n =>
          exact mp_zero_trans (mp_pushEvent s n)
            (ih (.hooks rest) (pushEvent s n) r (by simpa [exec] using h))
        | incMeta k =>
          exact mp_zero_trans (mp_pushMeta s k)
            (ih (.hooks rest) (pushMeta s k) r (by simpa [exec] using h))
        | raiseErr c => simp [exec] at h; cases h; exact mp_refl s
        | registerAct e =>
          simp only [exec] at h
          split at h
          · exact absurd h (by simp)
          · rename_i s2 c heq
            cases h
            exact ih (.reg e) s ⟨s2, some c⟩ heq
          · rename_i s2 heq
            exact mp_zero_trans (ih (.reg e) s ⟨s2, none⟩ heq)
              (ih (.hooks rest) s2 r h)
        | unregisterAct n =>
          exact mp_zero_trans (mp_unregister s n)
            (ih (.hooks rest) (unregister_engine s n) r (by simpa [exec] using h))
    | reg e =>
      simp only [exec] at h
      split at h
      · exact absurd h (by simp)
      · rename_i s2 heq
        cases h
        exact mp_zero_trans (mp_reg_insert s e) (ih (.hooks e.on_register) _ ⟨s2, none⟩ heq)
      · rename_i s2 c heq
        exact mp_zero_trans (mp_reg_insert s e)
          (mp_zero_trans (ih (.hooks e.on_register) _ ⟨s2, some c⟩ heq)
            (ih (.handleErr e.name c) s2 r h))
    | handleErr n c =>
      simp only [exec] at h
      split at h
      · split at h
        · exact absurd h (by simp)
        · rename_i s2 heq
          cases h
          exact ih .stopReq s ⟨s2, none⟩ heq
        · rename_i s2 c2 heq
          cases h
          exact ih .stopReq s ⟨s2, some c2⟩ heq
      · cases h
        exact mp_unregister s n
    | stopReq =>
      simp only [exec] at h
      exact mp_zero_trans (mp_running s false)
        (ih (.stopWalk s.engines) { s with running := false } r h)
    | stopWalk l =>
      cases l with
      | nil => simp [exec] at h; cases h; exact mp_refl s
      | cons re rest =>
        simp only [exec] at h
        split at h
        · exact absurd h (by simp)
        · rename_i s1 heq
          exact mp_zero_trans (mp_logCall s _)
            (mp_zero_trans (ih (.hooks re.spec.on_shutdown) _ ⟨s1, none⟩ heq)
              (ih (.stopWalk rest) s1 r h))
        · rename_i s1 c heq
          split at h
          · exact absurd h (by simp)
          · rename_i s2 heq2
            exact mp_zero_trans (mp_logCall s _)
              (mp_zero_trans (ih (.hooks re.spec.on_shutdown) _ ⟨s1, some c⟩ heq)
                (mp_zero_trans (ih (.handleErr re.spec.name c) s1 ⟨s2, none⟩ heq2)
                  (ih (.stopWalk rest) s2 r h)))
          · rename_i s2 c2 heq2
            cases h
            exact mp_zero_trans (mp_logCall s _)
              (mp_zero_trans (ih (.hooks re.spec.on_shutdown) _ ⟨s1, some c⟩ heq)
                (ih (.handleErr re.spec.name c) s1 ⟨s2, some c2⟩ heq2))
    | tickReq =>
      simp only [exec] at h
      exact mp_trans_zero (mp_advance s)
        (ih (.tickWalk (advance s).engines) (advance s) r h)
    | tickWalk l =>
      cases l with
      | nil => simp [exec] at h; cases h; exact mp_refl s
      | cons re rest =>
        simp only [exec] at h
        split at h
        · exact absurd h (by simp)
        · rename_i s1 heq
          exact mp_zero_trans (mp_logCall s _)
            (mp_zero_trans (ih (.hooks re.spec.step) _ ⟨s1, none⟩ heq)
              (ih (.tickWalk rest) s1 r h))
        · rename_i s1 c heq
          split at h
          · exact absurd h (by simp)
          · rename_i s2 heq2
            exact mp_zero_trans (mp_logCall s _)
              (mp_zero_trans (ih (.hooks re.spec.step) _ ⟨s1, some c⟩ heq)
                (mp_zero_trans (ih (.handleErr re.spec.name c) s1 ⟨s2, none⟩ heq2)
                  (ih (.tickWalk rest) s2 r h)))
          · rename_i s2 c2 heq2
            cases h
            exact mp_zero_trans (mp_logCall s _)
              (mp_zero_trans (ih (.hooks re.spec.step) _ ⟨s1, some c⟩ heq)
                (ih (.handleErr re.spec.name c) s1 ⟨s2, some c2⟩ heq2))

/-! ## Additional helpers for the claim proofs -/

theorem benignAct_stepOk {a : Act} (h : benignAct a = true) : stepOk a = true := by
  cases a <;> simp_all [benignAct, stepOk]

theorem benign_imp_stepOk {l : List Act} (h : benignActs l = true) :
    stepOkActs l = true := by
  simp only [benignActs, stepOkActs, List.all_eq_true] at h ⊢
  exact fun a ha => benignAct_stepOk (h a ha)

theorem mem_sortEngines_append (l : List RegEngine) (re : RegEngine) :
    re ∈ sortEngines (l ++ [re]) := by
  rw [(sortEngines_perm (l ++ [re])).mem_iff]
  simp

theorem mem_of_mem_sortEngines {l : List RegEngine} {x : RegEngine}
    (h : x ∈ sortEngines l) : x ∈ l :=
  (sortEngines_perm l).mem_iff.mp h

theorem count_shutdown_in_stepmap (l : List RegEngine) (n : String) :
    (l.map (fun re => TEv.stepCall re.spec.name)).count (TEv.shutdownCall n) = 0 := by
  refine List.count_eq_zero.mpr ?_
  simp [List.mem_map]

theorem count_shutdown_in_shutmap (l : List RegEngine) (x : RegEngine)
    (hnd : (l.map (fun re => re.spec.name)).Nodup) (hx : x ∈ l) :
    (l.map (fun re => TEv.shutdownCall re.spec.name)).count
      (TEv.shutdownCall x.spec.name) = 1 := by
  have hinj : Function.Injective TEv.shutdownCall := by
    intro a b hab
    cases hab
    rfl
  have hmap : l.map (fun re => TEv.shutdownCall re.spec.name) =
      (l.map (fun re => re.spec.name)).map TEv.shutdownCall := by
    simp [List.map_map, Function.comp]
  rw [hmap, List.count_map_of_injective _ _ hinj]
  exact List.count_eq_one_of_mem hnd (List.mem_map.mpr ⟨x, hx, rfl⟩)

/-! ## C10 -/

/-- C10: `get_world_state` returns the scheduler's own world-state instance,
the very one the tick loop mutates: for every scheduler state `s` the
accessor equals the `world` field, and after a `step_once` the mutation
(here, the tick increment) is visible through the accessor. -/
theorem c10_world_state_identity (s : OState) :
    get_world_state s = s.world ∧
    ∀ (f : ℕ) (r : OState × Option ℕ), step_once f s = some r →
      (get_world_state r.1).tick = (get_world_state s).tick + 1 := by
  refine ⟨rfl, ?_⟩
  intro f r h
  exact (exec_mp f .tickReq s r h).2.2.2.1

theorem c10_witness :
    get_world_state (init_state 10 true) = (init_state 10 true).world ∧
    (get_world_state ((step_once 5 (init_state 10 true)).getD dflt).1).tick =
      (get_world_state (init_state 10 true)).tick + 1 :=
  ⟨(c10_world_state_identity (init_state 10 true)).1,
    (c10_world_state_identity (init_state 10 true)).2 5
      ((step_once 5 (init_state 10 true)).getD dflt) (by rfl)⟩

/-! ## C9 -/

/-- A run of top-level API calls preserves the registry invariant. -/
theorem runOps_inv :
    ∀ (f : ℕ) (ops : List Op) (s : OState) (r : OState × Option ℕ),
      runOps f s ops = some r → RegInv s → RegInv r.1 := by
  intro f
  induction f with
  | zero => intro ops s r h; simp [runOps] at h
  | succ f ih =>
    intro ops s r h hinv
    cases ops with
    | nil => simp [runOps] at h; cases h; exact hinv
    | cons op rest =>
      cases op with
      | regOp e =>
        simp only [runOps] at h
        split at h
        · exact absurd h (by simp)
        · rename_i s2 c heq
          cases h
          exact (exec_mp f (.reg e) s ⟨s2, some c⟩ heq).2.2.2.2.2 hinv
        · rename_i s2 heq
          exact ih rest s2 r h ((exec_mp f (.reg e) s ⟨s2, none⟩ heq).2.2.2.2.2 hinv)
      | unregOp n =>
        simp only [runOps] at h
        exact ih rest (unregister_engine s n) r h (reginv_unregister hinv n)

/-- C9: after every sequence of `register_engine` / `unregister_engine`
calls starting from a fresh scheduler, the registry — hence the output of
`list_engines` — is in strict ascending `(priority, registration index)`
order: lower priority first, and among equal priorities the engine with the
smaller registration index (registered earlier) first. -/
theorem c9_registry_sorted (f : ℕ) (ops : List Op) (tick_rate : ℚ) (strict : Bool)
    (r : OState × Option ℕ) (h : runOps f (init_state tick_rate strict) ops = some r) :
    List.Pairwise lexLT r.1.engines := by
  have hinit : RegInv (init_state tick_rate strict) := by
    constructor
    · exact List.Pairwise.nil
    · intro re hre
      simp [init_state] at hre
  exact (runOps_inv f ops _ r h hinit).1

def c9eA : EngineSpec := .mk "alpha" 5 [] [] []
def c9eB : EngineSpec := .mk "beta" 1 [] [] []
def c9eC : EngineSpec := .mk "gamma" 5 [] [] []
def c9ops : List Op := [.regOp c9eA, .regOp c9eB, .regOp c9eC, .unregOp "beta"]

theorem c9_witness :
    List.Pairwise lexLT
      (((runOps 20 (init_state 10 true) c9ops).getD dflt).1.engines) :=
  c9_registry_sorted 20 c9ops 10 true
    ((runOps 20 (init_state 10 true) c9ops).getD dflt) (by rfl)

/-! ## C4 -/

def c4dup1 : EngineSpec := .mk "A" 1 [] [] []
def c4dup2 : EngineSpec := .mk "A" 2 [] [] []

/-- C4 fails on the code: `register_engine` performs no duplicate-name
check, so registering two components named "A" leaves both simultaneously
registered. -/
theorem c4_counterexample :
    (register_engine 10 (init_state 10 true) c4dup1).isSome = true ∧
    (register_engine 10
      ((register_engine 10 (init_state 10 true) c4dup1).getD dflt).1 c4dup2).isSome = true ∧
    list_engines
      ((register_engine 10
        ((register_engine 10 (init_state 10 true) c4dup1).getD dflt).1 c4dup2).getD dflt).1 =
      ["A", "A"] ∧
    ¬ (list_engines
      ((register_engine 10
        ((register_engine 10 (init_state 10 true) c4dup1).getD dflt).1 c4dup2).getD dflt).1).Nodup := by
  decide

/-- C4 amended: the code never enforces name uniqueness; uniqueness of the
registered names is nevertheless an invariant of the operations whenever
each `register_engine` call supplies a name that is not currently
registered.  `unregister_engine` always preserves it (it removes every
entry bearing the name), and `register_engine` preserves it exactly when
the new name is fresh (here with an `on_register` hook that does not itself
call back into the registry and does not raise). -/
theorem c4_unique_names_amended (s : OState) (n : String) (f : ℕ) (e : EngineSpec)
    (r : OState × Option ℕ) (hnd : (list_engines s).Nodup)
    (hfresh : e.name ∉ list_engines s) (hb : benignActs e.on_register = true)
    (hreg : register_engine f s e = some r) :
    (list_engines (unregister_engine s n)).Nodup ∧
    (list_engines r.1).Nodup ∧ r.2 = none := by
  refine ⟨?_, ?_, (exec_reg_benign f e s r hb hreg).1⟩
  · show ((s.engines.filter (fun e2 => e2.spec.name != n)).map
      (fun re => re.spec.name)).Nodup
    exact hnd.sublist
      (List.Sublist.map (fun re => re.spec.name) (List.filter_sublist s.engines))
  · have hre := exec_reg_benign f e s r hb hreg
    have heng : r.1.engines = sortEngines (s.engines ++ [⟨e, s.nextIdx⟩]) := hre.2.2.1
    have hperm : List.Perm (r.1.engines.map (fun re => re.spec.name))
        ((s.engines ++ [(⟨e, s.nextIdx⟩ : RegEngine)]).map (fun re => re.spec.name)) := by
      rw [heng]
      exact (sortEngines_perm _).map _
    rw [list_engines, hperm.nodup_iff]
    simp only [List.map_append, List.map_cons, List.map_nil]
    rw [List.nodup_append]
    refine ⟨hnd, by simp, ?_⟩
    intro a ha hb2
    simp at hb2
    rw [hb2] at ha
    exact hfresh ha

def c4fresh : EngineSpec := .mk "B" 0 [] [] []
def c4base : OState :=
  { init_state 10 true with engines := [⟨c4dup1, 0⟩], nextIdx := 1 }

theorem c4_witness :
    (list_engines (unregister_engine c4base "A")).Nodup ∧
    (list_engines ((register_engine 10 c4base c4fresh).getD dflt).1).Nodup ∧
    ((register_engine 10 c4base c4fresh).getD dflt).2 = none :=
  c4_unique_names_amended c4base "A" 10 c4fresh
    ((register_engine 10 c4base c4fresh).getD dflt)
    (by decide) (by decide) (by decide) (by rfl)

/-! ## C2 -/

/-- C2 amended, general form: the tick loop walks the snapshot of the
registry taken at tick start (`list(self.engines)`); when no step raises,
exactly the snapshot entries' steps are invoked, in snapshot order — no
matter how the steps register or evict engines mid-tick. -/
theorem c2_snapshot_semantics (f : ℕ) (s : OState) (r : OState × Option ℕ)
    (hsteps : ∀ re ∈ s.engines, stepOkActs re.spec.step = true)
    (h : step_once f s = some r) :
    r.2 = none ∧
    r.1.calls = s.calls ++ s.engines.map (fun re => TEv.stepCall re.spec.name) := by
  cases f with
  | zero => simp [step_once, tick, exec] at h
  | succ f =>
    have h' : exec f (.tickWalk (advance s).engines) (advance s) = some r := by
      simpa [step_once, tick, exec] using h
    have := exec_tickWalk_stepOk f (advance s).engines (advance s) r
      (by simpa [advance] using hsteps) h'
    exact ⟨this.1, this.2.2.2.2.2.1⟩

def c2late : EngineSpec := .mk "C" 100 [] [] []
def c2regA : EngineSpec := .mk "A" 1 [] [Act.registerAct c2late] []
def c2evA : EngineSpec := .mk "A" 1 [] [Act.unregisterAct "B"] []
def c2b : EngineSpec := .mk "B" 2 [] [] []
def c2sReg : OState :=
  { init_state 10 false with engines := [⟨c2regA, 0⟩, ⟨c2b, 1⟩], nextIdx := 2, running := true }
def c2sEv : OState :=
  { init_state 10 false with engines := [⟨c2evA, 0⟩, ⟨c2b, 1⟩], nextIdx := 2, running := true }

/-- C2 fails on the code: a component registered mid-tick with a later
priority ("C", priority 100, registered by "A" during its step) is in the
registry after the tick but its `step` was never invoked during that tick;
and a component evicted mid-tick ("B", unregistered by "A" during its step)
still had its `step` invoked in that same tick. -/
theorem c2_counterexample :
    (step_once 20 c2sReg).isSome = true ∧
    "C" ∈ list_engines ((step_once 20 c2sReg).getD dflt).1 ∧
    TEv.stepCall "C" ∉ ((step_once 20 c2sReg).getD dflt).1.calls ∧
    (step_once 20 c2sEv).isSome = true ∧
    "B" ∉ list_engines ((step_once 20 c2sEv).getD dflt).1 ∧
    TEv.stepCall "B" ∈ ((step_once 20 c2sEv).getD dflt).1.calls := by
  decide

theorem c2_witness :
    ((step_once 20 c2sReg).getD dflt).2 = none ∧
    ((step_once 20 c2sReg).getD dflt).1.calls =
      c2sReg.calls ++ c2sReg.engines.map (fun re => TEv.stepCall re.spec.name) :=
  c2_snapshot_semantics 20 c2sReg ((step_once 20 c2sReg).getD dflt)
    (by decide) (by rfl)

/-! ## C8 -/

/-- C8: one tick (as performed by `step_once`) increments the tick counter
by exactly 1 and advances the clock by exactly the fixed tick duration;
the events sequence is cleared before any component runs (the run is
entirely independent of the pre-tick events content); and the steps invoked
are exactly those of the currently-registered components, in registry —
that is, priority — order, each wrapped by the fault policy (shown here for
the raise-free case; the failure cases are the subject of C6/C7). -/
theorem c8_tick_structure (f : ℕ) (s : OState) (r : OState × Option ℕ)
    (hinv : RegInv s)
    (hsteps : ∀ re ∈ s.engines, stepOkActs re.spec.step = true)
    (h : step_once f s = some r) :
    r.1.world.tick = s.world.tick + 1 ∧
    r.1.world.time = s.world.time + s.tickDuration ∧
    (∀ events0 : List ℕ,
      step_once f { s with world := { s.world with events := events0 } } = some r) ∧
    List.Pairwise lexLT s.engines ∧
    r.1.calls = s.calls ++ s.engines.map (fun re => TEv.stepCall re.spec.name) ∧
    r.2 = none := by
  have hmp := exec_mp f .tickReq s r h
  refine ⟨hmp.2.2.2.1, by simpa [ticksOf] using hmp.2.2.2.2.1, ?_, hinv.1, ?_, ?_⟩
  · intro events0
    cases f with
    | zero => simp [step_once, tick, exec] at h
    | succ f =>
      have hadv : advance { s with world := { s.world with events := events0 } } =
          advance s := rfl
      show exec (f + 1) .tickReq { s with world := { s.world with events := events0 } } =
        some r
      simp only [exec, hadv]
      simpa [step_once, tick, exec] using h
  · cases f with
    | zero => simp [step_once, tick, exec] at h
    | succ f =>
      have h' : exec f (.tickWalk (advance s).engines) (advance s) = some r := by
        simpa [step_once, tick, exec] using h
      exact (exec_tickWalk_stepOk f (advance s).engines (advance s) r
        (by simpa [advance] using hsteps) h').2.2.2.2.2.1
  · cases f with
    | zero => simp [step_once, tick, exec] at h
    | succ f =>
      have h' : exec f (.tickWalk (advance s).engines) (advance s) = some r := by
        simpa [step_once, tick, exec] using h
      exact (exec_tickWalk_stepOk f (advance s).engines (advance s) r
        (by simpa [advance] using hsteps) h').1

def c8e1 : EngineSpec := .mk "first" 1 [] [Act.appendEvent 3] []
def c8e2 : EngineSpec := .mk "second" 2 [] [Act.incMeta "hits"] []
def c8s : OState :=
  { init_state 10 true with
      engines := [⟨c8e1, 0⟩, ⟨c8e2, 1⟩], nextIdx := 2, running := true }

theorem c8_witness :
    ((step_once 20 c8s).getD dflt).1.world.tick = c8s.world.tick + 1 ∧
    ((step_once 20 c8s).getD dflt).1.world.time = c8s.world.time + c8s.tickDuration ∧
    step_once 20 { c8s with world := { c8s.world with events := [99] } } =
      some ((step_once 20 c8s).getD dflt) ∧
    ((step_once 20 c8s).getD dflt).1.calls =
      c8s.calls ++ c8s.engines.map (fun re => TEv.stepCall re.spec.name) ∧
    ((step_once 20 c8s).getD dflt).2 = none := by
  have hc := c8_tick_structure 20 c8s ((step_once 20 c8s).getD dflt)
    (by constructor
        · decide
        · decide)
    (by decide) (by rfl)
  exact ⟨hc.1, hc.2.1, hc.2.2.1 [99], hc.2.2.2.2.1, hc.2.2.2.2.2⟩

/-! ## C1 -/

def c1f : EngineSpec := .mk "F" 5 [Act.raiseErr 7] [] []

/-- C1 fails on the code: in strict mode a failing `on_register` does make
`register_engine` re-raise the original failure (here exception 7), but the
component is *not* evicted — it still appears in `list_names()` afterward,
because the strict branch of `_handle_engine_error` never unregisters. -/
theorem c1_counterexample :
    (register_engine 10 (init_state 10 true) c1f).isSome = true ∧
    ((register_engine 10 (init_state 10 true) c1f).getD dflt).2 = some 7 ∧
    "F" ∈ list_engines ((register_engine 10 (init_state 10 true) c1f).getD dflt).1 := by
  decide

/-- C1 amended: in strict mode, when a component's `on_register` raises
during `register_engine`, the call re-raises the original failure to the
caller after performing an orderly `stop()` (running becomes false and
`on_shutdown` runs over the registry, which already includes the new
component) — but the component *remains* in `list_names()`: eviction
happens only in isolated mode. -/
theorem c1_register_failure_strict (f : ℕ) (s : OState) (e : EngineSpec)
    (p q : List Act) (c : ℕ) (r : OState × Option ℕ)
    (hstrict : s.strict = true)
    (hhook : e.on_register = p ++ Act.raiseErr c :: q) (hp : benignActs p = true)
    (hshut : ∀ re ∈ s.engines, benignActs re.spec.on_shutdown = true)
    (hshute : benignActs e.on_shutdown = true)
    (h : register_engine f s e = some r) :
    r.2 = some c ∧ e.name ∈ list_engines r.1 ∧ r.1.running = false := by
  cases f with
  | zero => simp [register_engine, exec] at h
  | succ f =>
    have h' : exec (f + 1) (.reg e) s = some r := h
    simp only [exec] at h'
    split at h'
    · exact absurd h' (by simp)
    · rename_i s2 heq
      rw [hhook] at heq
      have := exec_hooks_raise f p c q _ _ hp heq
      simp at this
    · rename_i s2 c' heq
      rw [hhook] at heq
      have hr := exec_hooks_raise f p c q _ _ hp heq
      have hcc : c' = c := by
        have := hr.1
        simp at this
        exact this
      obtain ⟨-, hengines2, -, -, hstrict2, -, -, -, -, -⟩ := hr
      have hshut2 : ∀ re ∈ s2.engines, benignActs re.spec.on_shutdown = true := by
        intro re hre
        rw [hengines2] at hre
        have hmem : re = (⟨e, s.nextIdx⟩ : RegEngine) ∨ re ∈ s.engines := by
          have := mem_of_mem_sortEngines hre
          rcases List.mem_append.mp this with hmem | hmem
          · exact Or.inr hmem
          · simp at hmem
            exact Or.inl hmem
        rcases hmem with rfl | hmem
        · exact hshute
        · exact hshut re hmem
      have hhe := exec_handleErr_strict f e.name c' s2 r
        (by rw [hstrict2]; exact hstrict) hshut2 h'
      refine ⟨by rw [hhe.1, hcc], ?_, hhe.2.1⟩
      have hrengines : r.1.engines = s2.engines := hhe.2.2.1
      rw [list_engines, hrengines, hengines2]
      exact List.mem_map.mpr ⟨⟨e, s.nextIdx⟩, mem_sortEngines_append s.engines _, rfl⟩

def c1w : EngineSpec := .mk "W" 3 [Act.incMeta "touched", Act.raiseErr 4] [] []
def c1base : OState :=
  { init_state 10 true with engines := [⟨c4dup1, 0⟩], nextIdx := 1, running := true }

theorem c1_witness :
    ((register_engine 10 c1base c1w).getD dflt).2 = some 4 ∧
    "W" ∈ list_engines ((register_engine 10 c1base c1w).getD dflt).1 ∧
    ((register_engine 10 c1base c1w).getD dflt).1.running = false :=
  c1_register_failure_strict 10 c1base c1w [Act.incMeta "touched"] [] 4
    ((register_engine 10 c1base c1w).getD dflt)
    (by rfl) (by rfl) (by decide) (by decide) (by decide) (by rfl)

/-! ## C5 -/

def c5e : EngineSpec := .mk "A" 1 [] [] [Act.incMeta "shut"]
def c5s : OState :=
  { init_state 10 true with engines := [⟨c5e, 0⟩], nextIdx := 1, running := true }

/-- C5 fails on the code: a second `stop()` call is not a no-op relative to
the first — it re-invokes every registered component's `on_shutdown` (the
"shut" counter in the shared state goes from 1 to 2, and the invocation log
records the hook twice), so `on_shutdown` is not invoked exactly once. -/
theorem c5_counterexample :
    (stop 10 c5s).isSome = true ∧
    (stop 10 ((stop 10 c5s).getD dflt).1).isSome = true ∧
    ((stop 10 c5s).getD dflt).1.world.meta = [("shut", 1)] ∧
    ((stop 10 ((stop 10 c5s).getD dflt).1).getD dflt).1.world.meta = [("shut", 2)] ∧
    ((stop 10 ((stop 10 c5s).getD dflt).1).getD dflt).1.calls.count
      (TEv.shutdownCall "A") = 2 := by
  decide

/-- C5 amended: `stop()` always sets running to false and invokes
`on_shutdown` once per registered component *per call*, in registry order;
it is idempotent on the running flag and the registry contents, but a
second `stop()` re-invokes every `on_shutdown`, so the hook runs once per
`stop()` call — not once overall. -/
theorem c5_stop_amended (f f2 : ℕ) (s : OState) (r r2 : OState × Option ℕ)
    (hb : ∀ re ∈ s.engines, benignActs re.spec.on_shutdown = true)
    (h : stop f s = some r) :
    r.2 = none ∧ r.1.running = false ∧ r.1.engines = s.engines ∧
    r.1.calls = s.calls ++ s.engines.map (fun re => TEv.shutdownCall re.spec.name) ∧
    (stop f2 r.1 = some r2 →
      r2.1.running = false ∧ r2.1.engines = s.engines ∧
      r2.1.calls = r.1.calls ++ s.engines.map (fun re => TEv.shutdownCall re.spec.name)) := by
  have h1 := exec_stop_benign f s r hb h
  refine ⟨h1.1, h1.2.1, h1.2.2.1, h1.2.2.2.2.2.2.2.1, ?_⟩
  intro h2
  have hb2 : ∀ re ∈ r.1.engines, benignActs re.spec.on_shutdown = true := by
    intro re hre
    exact hb re (h1.2.2.1 ▸ hre)
  have hst2 := exec_stop_benign f2 r.1 r2 hb2 h2
  refine ⟨hst2.2.1, (hst2.2.2.1).trans h1.2.2.1, ?_⟩
  rw [hst2.2.2.2.2.2.2.2.1, h1.2.2.1]

def c5w : EngineSpec := .mk "quiet" 2 [] [] [Act.appendEvent 1]
def c5sw : OState :=
  { init_state 10 true with
      engines := [⟨c5e, 0⟩, ⟨c5w, 1⟩], nextIdx := 2, running := true }

theorem c5_witness :
    ((stop 10 c5sw).getD dflt).2 = none ∧
    ((stop 10 c5sw).getD dflt).1.running = false ∧
    ((stop 10 c5sw).getD dflt).1.engines = c5sw.engines ∧
    ((stop 10 c5sw).getD dflt).1.calls =
      c5sw.calls ++ c5sw.engines.map (fun re => TEv.shutdownCall re.spec.name) ∧
    ((stop 10 ((stop 10 c5sw).getD dflt).1).getD dflt).1.calls =
      ((stop 10 c5sw).getD dflt).1.calls ++
        c5sw.engines.map (fun re => TEv.shutdownCall re.spec.name) := by
  have hc := c5_stop_amended 10 10 c5sw ((stop 10 c5sw).getD dflt)
    ((stop 10 ((stop 10 c5sw).getD dflt).1).getD dflt) (by decide) (by rfl)
  exact ⟨hc.1, hc.2.1, hc.2.2.1, hc.2.2.2.1, (hc.2.2.2.2 (by rfl)).2.2⟩

/-! ## C6 -/

/-- Walking the tick snapshot in strict mode when one engine's step raises:
the benign earlier steps run, the failing step is invoked and raises, the
fault policy performs an orderly `stop()` (shutting down the whole current
registry) and the exception propagates, aborting the walk. -/
theorem exec_tickWalk_strictfail :
    ∀ (f : ℕ) (pre : List RegEngine) (E : RegEngine) (post : List RegEngine)
      (p q : List Act) (c : ℕ) (s : OState) (r : OState × Option ℕ),
      s.strict = true →
      (∀ re ∈ pre, benignActs re.spec.step = true) →
      E.spec.step = p ++ Act.raiseErr c :: q → benignActs p = true →
      (∀ re ∈ s.engines, benignActs re.spec.on_shutdown = true) →
      exec f (.tickWalk (pre ++ E :: post)) s = some r →
      r.2 = some c ∧ r.1.running = false ∧ r.1.engines = s.engines ∧
      r.1.world.tick = s.world.tick ∧ r.1.world.time = s.world.time ∧
      r.1.calls = s.calls ++ pre.map (fun re => TEv.stepCall re.spec.name)
        ++ [TEv.stepCall E.spec.name]
        ++ s.engines.map (fun re => TEv.shutdownCall re.spec.name) := by
  intro f
  induction f with
  | zero => intro pre E post p q c s r _ _ _ _ _ h; simp [exec] at h
  | succ f ih =>
    intro pre E post p q c s r hst hpre hE hp hshut h
    cases pre with
    | nil =>
      simp only [List.nil_append] at h
      simp only [exec] at h
      split at h
      · exact absurd h (by simp)
      · rename_i s1 heq
        rw [hE] at heq
        have := exec_hooks_raise f p c q _ _ hp heq
        simp at this
      · rename_i s1 c' heq
        rw [hE] at heq
        have hr := exec_hooks_raise f p c q _ _ hp heq
        have hcc : c' = c := by simpa using hr.1
        obtain ⟨-, he1, -, hru1, hst1, -, -, hc1, ht1, hm1⟩ := hr
        split at h
        · exact absurd h (by simp)
        · rename_i s2 heq2
          have := exec_handleErr_strict f E.spec.name c' s1 ⟨s2, none⟩
            (by rw [hst1]; exact hst)
            (by intro re hre; exact hshut re (by rwa [he1] at hre)) heq2
          simp at this
        · rename_i s2 c2 heq2
          cases h
          have hhe := exec_handleErr_strict f E.spec.name c' s1 ⟨s2, some c2⟩
            (by rw [hst1]; exact hst)
            (by intro re hre; exact hshut re (by rwa [he1] at hre)) heq2
          have hc2c : c2 = c' := by simpa using hhe.1
          refine ⟨by simp [hc2c, hcc], hhe.2.1, (hhe.2.2.1).trans he1, ?_, ?_, ?_⟩
          · rw [hhe.2.2.2.2.2.2.2.2.1, ht1]; simp [logCall]
          · rw [hhe.2.2.2.2.2.2.2.2.2, hm1]; simp [logCall]
          · rw [hhe.2.2.2.2.2.2.2.1, hc1, he1]
            simp [logCall]
    | cons a pre' =>
      simp only [List.cons_append] at h
      simp only [exec] at h
      split at h
      · exact absurd h (by simp)
      · rename_i s1 heq
        have hben := exec_hooks_benign f _ _ _ (hpre a (by simp)) heq
        obtain ⟨-, he1, -, -, hst1, -, -, hc1, ht1, hm1⟩ := hben
        have hih := ih pre' E post p q c s1 r
          (by rw [hst1]; simpa [logCall] using hst)
          (fun re hre => hpre re (by simp [hre])) hE hp
          (by intro re hre; exact hshut re (by rw [he1] at hre; simpa [logCall] using hre)) h
        refine ⟨hih.1, hih.2.1, (hih.2.2.1).trans (by simpa [logCall] using he1), ?_, ?_, ?_⟩
        · rw [hih.2.2.2.1, ht1]; simp [logCall]
        · rw [hih.2.2.2.2.1, hm1]; simp [logCall]
        · rw [hih.2.2.2.2.2, hc1, he1]
          simp [logCall, List.append_assoc]
      · rename_i s1 c' heq
        have hben := exec_hooks_benign f _ _ _ (hpre a (by simp)) heq
        simp at hben

/-- C6: in strict mode, when a component's `step` raises during a tick, the
running flag becomes false, `on_shutdown` is invoked exactly once on every
other still-registered component (the whole registry is shut down, in
registry order), and only then is the original failure re-raised to the
caller of `step_once` (it is the error component of the returned result,
produced after the shutdown calls were logged). -/
theorem c6_strict_step_failure (f : ℕ) (s : OState) (pre post : List RegEngine)
    (E : RegEngine) (p q : List Act) (c : ℕ) (r : OState × Option ℕ)
    (hstrict : s.strict = true)
    (heng : s.engines = pre ++ E :: post)
    (hpre : ∀ re ∈ pre, benignActs re.spec.step = true)
    (hE : E.spec.step = p ++ Act.raiseErr c :: q) (hp : benignActs p = true)
    (hshut : ∀ re ∈ s.engines, benignActs re.spec.on_shutdown = true)
    (hnd : (list_engines s).Nodup)
    (h : step_once f s = some r) :
    r.2 = some c ∧ r.1.running = false ∧ r.1.engines = s.engines ∧
    r.1.calls = s.calls ++ pre.map (fun re => TEv.stepCall re.spec.name)
      ++ [TEv.stepCall E.spec.name]
      ++ s.engines.map (fun re => TEv.shutdownCall re.spec.name) ∧
    ∀ re ∈ s.engines,
      r.1.calls.count (TEv.shutdownCall re.spec.name) =
        s.calls.count (TEv.shutdownCall re.spec.name) + 1 := by
  cases f with
  | zero => simp [step_once, tick, exec] at h
  | succ f =>
    have h' : exec f (.tickWalk (advance s).engines) (advance s) = some r := by
      simpa [step_once, tick, exec] using h
    rw [show (advance s).engines = s.engines from rfl, heng] at h'
    have hw := exec_tickWalk_strictfail f pre E post p q c (advance s) r
      (by simpa [advance] using hstrict) hpre hE hp
      (by simpa [advance] using hshut) h'
    have hadv_eng : (advance s).engines = s.engines := rfl
    have hadv_calls : (advance s).calls = s.calls := rfl
    have hcalls : r.1.calls = s.calls ++ pre.map (fun re => TEv.stepCall re.spec.name)
        ++ [TEv.stepCall E.spec.name]
        ++ s.engines.map (fun re => TEv.shutdownCall re.spec.name) := by
      rw [hw.2.2.2.2.2, hadv_calls, hadv_eng]
    refine ⟨hw.1, hw.2.1, (hw.2.2.1).trans hadv_eng, hcalls, ?_⟩
    intro re hre
    rw [hcalls]
    rw [List.count_append, List.count_append, List.count_append]
    rw [count_shutdown_in_stepmap pre, count_shutdown_in_shutmap s.engines re hnd hre]
    simp
def c6a : EngineSpec := .mk "a" 1 [] [Act.appendEvent 1] []
def c6boom : EngineSpec := .mk "boom" 2 [] [Act.raiseErr 9] []
def c6z : EngineSpec := .mk "z" 3 [] [Act.appendEvent 3] []
def c6s : OState :=
  { init_state 10 true with
      engines := [⟨c6a, 0⟩, ⟨c6boom, 1⟩, ⟨c6z, 2⟩], nextIdx := 3, running := true }

theorem c6_witness :
    ((step_once 20 c6s).getD dflt).2 = some 9 ∧
    ((step_once 20 c6s).getD dflt).1.running = false ∧
    ((step_once 20 c6s).getD dflt).1.engines = c6s.engines ∧
    ((step_once 20 c6s).getD dflt).1.calls =
      c6s.calls ++ [(⟨c6a, 0⟩ : RegEngine)].map (fun re => TEv.stepCall re.spec.name)
        ++ [TEv.stepCall (⟨c6boom, 1⟩ : RegEngine).spec.name]
        ++ c6s.engines.map (fun re => TEv.shutdownCall re.spec.name) ∧
    ((step_once 20 c6s).getD dflt).1.calls.count
        (TEv.shutdownCall (⟨c6a, 0⟩ : RegEngine).spec.name) =
      c6s.calls.count (TEv.shutdownCall (⟨c6a, 0⟩ : RegEngine).spec.name) + 1 := by
  have hc := c6_strict_step_failure 20 c6s [⟨c6a, 0⟩] [⟨c6z, 2⟩] ⟨c6boom, 1⟩ [] [] 9
    ((step_once 20 c6s).getD dflt)
    (by rfl) (by rfl) (by decide) (by rfl) (by rfl) (by decide) (by decide) (by rfl)
  exact ⟨hc.1, hc.2.1, hc.2.2.1, hc.2.2.2.1, hc.2.2.2.2 ⟨c6a, 0⟩ (by simp [c6s])⟩

/-! ## C7 -/

/-- Inversion of `_handle_engine_error` in isolated mode: whatever the fuel,
a successful call evicts the offending engine by name and returns normally. -/
theorem exec_handleErr_isolated_inv (f : ℕ) (n : String) (c : ℕ) (s : OState)
    (r : OState × Option ℕ) (hstrict : s.strict = false)
    (h : exec f (.handleErr n c) s = some r) :
    r = (unregister_engine s n, none) := by
  cases f with
  | zero => simp [exec] at h
  | succ f =>
    simp only [exec] at h
    split at h
    · rename_i hc
      rw [hstrict] at hc
      exact absurd hc (by simp)
    · cases h
      rfl

/-- The tick walk over a snapshot of engines whose steps are all benign:
every step is invoked once, in order, and the state is otherwise framed,
registry included. -/
theorem exec_tickWalk_benign :
    ∀ (f : ℕ) (l : List RegEngine) (s : OState) (r : OState × Option ℕ),
      (∀ re ∈ l, benignActs re.spec.step = true) →
      exec f (.tickWalk l) s = some r →
      r.2 = none ∧ r.1.engines = s.engines ∧ r.1.nextIdx = s.nextIdx ∧
      r.1.running = s.running ∧ r.1.strict = s.strict ∧
      r.1.world.tick = s.world.tick ∧ r.1.world.time = s.world.time ∧
      r.1.calls = s.calls ++ l.map (fun re => TEv.stepCall re.spec.name) := by
  intro f
  induction f with
  | zero => intro l s r _ h; simp [exec] at h
  | succ f ih =>
    intro l s r hb h
    cases l with
    | nil =>
      simp [exec] at h
      cases h
      exact ⟨rfl, rfl, rfl, rfl, rfl, rfl, rfl, by simp⟩
    | cons re rest =>
      simp only [exec] at h
      split at h
      · exact absurd h (by simp)
      · rename_i s1 heq
        have h1 := exec_hooks_benign f _ _ _ (hb re (by simp)) heq
        obtain ⟨-, e1, e2, e3, e4, -, -, e7, e8, e9⟩ := h1
        have h2 := ih rest s1 r (fun x hx => hb x (by simp [hx])) h
        obtain ⟨herr, g1, g2, g3, g4, g5, g6, g7⟩ := h2
        refine ⟨herr, g1.trans (by simpa [logCall] using e1),
          g2.trans (by simpa [logCall] using e2),
          g3.trans (by simpa [logCall] using e3),
          g4.trans (by simpa [logCall] using e4),
          g5.trans (by simpa [logCall] using e8),
          g6.trans (by simpa [logCall] using e9), ?_⟩
        rw [g7, e7]
        simp [logCall]
      · rename_i s1 c heq
        have h1 := exec_hooks_benign f _ _ _ (hb re (by simp)) heq
        simp at h1

/-- Walking the tick snapshot in isolated mode when one engine's step
raises: every snapshot entry's step — including those after the failing
one — is still invoked, the failing engine alone is evicted, and no
exception escapes. -/
theorem exec_tickWalk_isolated :
    ∀ (f : ℕ) (pre : List RegEngine) (E : RegEngine) (post : List RegEngine)
      (p q : List Act) (c : ℕ) (s : OState) (r : OState × Option ℕ),
      s.strict = false →
      (∀ re ∈ pre, benignActs re.spec.step = true) →
      (∀ re ∈ post, benignActs re.spec.step = true) →
      E.spec.step = p ++ Act.raiseErr c :: q → benignActs p = true →
      exec f (.tickWalk (pre ++ E :: post)) s = some r →
      r.2 = none ∧
      r.1.engines = s.engines.filter (fun re => re.spec.name != E.spec.name) ∧
      r.1.running = s.running ∧ r.1.strict = s.strict ∧
      r.1.world.tick = s.world.tick ∧ r.1.world.time = s.world.time ∧
      r.1.calls = s.calls ++ (pre ++ E :: post).map (fun re => TEv.stepCall re.spec.name) := by
  intro f
  induction f with
  | zero => intro pre E post p q c s r _ _ _ _ _ h; simp [exec] at h
  | succ f ih =>
    intro pre E post p q c s r hiso hpre hpost hE hp h
    cases pre with
    | nil =>
      simp only [List.nil_append] at h
      simp only [exec] at h
      split at h
      · exact absurd h (by simp)
      · rename_i s1 heq
        rw [hE] at heq
        have := exec_hooks_raise f p c q _ _ hp heq
        simp at this
      · rename_i s1 c' heq
        rw [hE] at heq
        have hr := exec_hooks_raise f p c q _ _ hp heq
        obtain ⟨-, he1, -, hru1, hst1, -, -, hc1, ht1, hm1⟩ := hr
        split at h
        · exact absurd h (by simp)
        · rename_i s2 heq2
          have hinv := exec_handleErr_isolated_inv f E.spec.name c' s1 ⟨s2, none⟩
            (by rw [hst1]; simpa [logCall] using hiso) heq2
          have hs2 : s2 = unregister_engine s1 E.spec.name := by
            have := congrArg Prod.fst hinv
            simpa using this
          have hwalk := exec_tickWalk_benign f post s2 r hpost h
          obtain ⟨herr, g1, -, g3, g4, g5, g6, g7⟩ := hwalk
          have hs2facts : s2.engines = s1.engines.filter
              (fun re => re.spec.name != E.spec.name) ∧
              s2.running = s1.running ∧ s2.strict = s1.strict ∧
              s2.world = s1.world ∧ s2.calls = s1.calls := by
            rw [hs2]
            exact ⟨rfl, rfl, rfl, rfl, rfl⟩
          refine ⟨herr, ?_, ?_, ?_, ?_, ?_, ?_⟩
          · rw [g1, hs2facts.1, he1]
            simp [logCall]
          · rw [g3, hs2facts.2.1, hru1]
            simp [logCall]
          · rw [g4, hs2facts.2.2.1, hst1]
            simp [logCall]
          · rw [g5, hs2facts.2.2.2.1, ht1]
            simp [logCall]
          · rw [g6, hs2facts.2.2.2.1, hm1]
            simp [logCall]
          · rw [g7, hs2facts.2.2.2.2, hc1]
            simp [logCall]
        · rename_i s2 c2 heq2
          have hinv := exec_handleErr_isolated_inv f E.spec.name c' s1 ⟨s2, some c2⟩
            (by rw [hst1]; simpa [logCall] using hiso) heq2
          have := congrArg Prod.snd hinv
          simp at this
    | cons a pre' =>
      simp only [List.cons_append] at h
      simp only [exec] at h
      split at h
      · exact absurd h (by simp)
      · rename_i s1 heq
        have hben := exec_hooks_benign f _ _ _ (hpre a (by simp)) heq
        obtain ⟨-, he1, -, hru1, hst1, -, -, hc1, ht1, hm1⟩ := hben
        have hih := ih pre' E post p q c s1 r
          (by rw [hst1]; simpa [logCall] using hiso)
          (fun re hre => hpre re (by simp [hre])) hpost hE hp h
        refine ⟨hih.1, ?_, ?_, ?_, ?_, ?_, ?_⟩
        · rw [hih.2.1, he1]
          simp [logCall]
        · rw [hih.2.2.1, hru1]
          simp [logCall]
        · rw [hih.2.2.2.1, hst1]
          simp [logCall]
        · rw [hih.2.2.2.2.1, ht1]
          simp [logCall]
        · rw [hih.2.2.2.2.2.1, hm1]
          simp [logCall]
        · rw [hih.2.2.2.2.2.2, hc1]
          simp [logCall, List.append_assoc]
      · rename_i s1 c' heq
        have hben := exec_hooks_benign f _ _ _ (hpre a (by simp)) heq
        simp at hben

/-- C7: in isolated mode, when a registered component's `step` raises
during a tick, the component is in `list_names()` before the tick and
absent immediately after it, every other component's step for that same
tick still executes (including the later-priority ones — the loop walks
the tick-start snapshot), and `step_once` returns normally: the failure is
not re-raised. -/
theorem c7_isolated_step_failure (f : ℕ) (s : OState) (pre post : List RegEngine)
    (E : RegEngine) (p q : List Act) (c : ℕ) (r : OState × Option ℕ)
    (hiso : s.strict = false)
    (heng : s.engines = pre ++ E :: post)
    (hpre : ∀ re ∈ pre, benignActs re.spec.step = true)
    (hpost : ∀ re ∈ post, benignActs re.spec.step = true)
    (hE : E.spec.step = p ++ Act.raiseErr c :: q) (hp : benignActs p = true)
    (hnd : (list_engines s).Nodup)
    (h : step_once f s = some r) :
    r.2 = none ∧
    E.spec.name ∈ list_engines s ∧
    E.spec.name ∉ list_engines r.1 ∧
    r.1.engines = pre ++ post ∧
    r.1.calls = s.calls ++ (pre ++ E :: post).map (fun re => TEv.stepCall re.spec.name) := by
  cases f with
  | zero => simp [step_once, tick, exec] at h
  | succ f =>
    have h' : exec f (.tickWalk (advance s).engines) (advance s) = some r := by
      simpa [step_once, tick, exec] using h
    rw [show (advance s).engines = s.engines from rfl, heng] at h'
    have hw := exec_tickWalk_isolated f pre E post p q c (advance s) r
      (by simpa [advance] using hiso) hpre hpost hE hp h'
    have hnd' : ((pre ++ E :: post).map (fun re => re.spec.name)).Nodup := by
      rw [list_engines, heng] at hnd
      exact hnd
    simp only [List.map_append, List.map_cons] at hnd'
    rw [List.nodup_append] at hnd'
    obtain ⟨hndpre, hndpost, hdisj⟩ := hnd'
    have hEpre : ∀ x ∈ pre, x.spec.name ≠ E.spec.name := by
      intro x hx hcontra
      exact hdisj (List.mem_map.mpr ⟨x, hx, rfl⟩) (by rw [hcontra]; simp)
    have hEpost : ∀ x ∈ post, x.spec.name ≠ E.spec.name := by
      intro x hx hcontra
      have := (List.nodup_cons.mp hndpost).1
      exact this (by rw [← hcontra]; exact List.mem_map.mpr ⟨x, hx, rfl⟩)
    have hfilter : s.engines.filter (fun re => re.spec.name != E.spec.name) =
        pre ++ post := by
      rw [heng, List.filter_append, List.filter_cons]
      rw [List.filter_eq_self.mpr (fun x hx => by simpa using hEpre x hx)]
      simp only [bne_self_eq_false, Bool.false_eq_true, if_false, cond_false]
      rw [List.filter_eq_self.mpr (fun x hx => by simpa using hEpost x hx)]
    have hengr : r.1.engines = pre ++ post := by
      rw [hw.2.1, show (advance s).engines = s.engines from rfl, hfilter]
    refine ⟨hw.1, ?_, ?_, hengr, ?_⟩
    · rw [list_engines, heng]
      simp
    · rw [list_engines, hengr]
      simp only [List.map_append, List.mem_append]
      rintro (hmem | hmem) <;> rw [List.mem_map] at hmem
      · obtain ⟨x, hx, hxn⟩ := hmem
        exact hEpre x hx hxn
      · obtain ⟨x, hx, hxn⟩ := hmem
        exact hEpost x hx hxn
    · rw [hw.2.2.2.2.2.2]
      rfl

def c7a : EngineSpec := .mk "a" 1 [] [Act.appendEvent 1] []
def c7boom : EngineSpec := .mk "boom" 2 [] [Act.raiseErr 5] []
def c7z : EngineSpec := .mk "z" 3 [] [Act.appendEvent 3] []
def c7s : OState :=
  { init_state 10 false with
      engines := [⟨c7a, 0⟩, ⟨c7boom, 1⟩, ⟨c7z, 2⟩], nextIdx := 3, running := true }

theorem c7_witness :
    ((step_once 20 c7s).getD dflt).2 = none ∧
    (⟨c7boom, 1⟩ : RegEngine).spec.name ∈ list_engines c7s ∧
    (⟨c7boom, 1⟩ : RegEngine).spec.name ∉ list_engines ((step_once 20 c7s).getD dflt).1 ∧
    ((step_once 20 c7s).getD dflt).1.engines = [⟨c7a, 0⟩] ++ [⟨c7z, 2⟩] ∧
    ((step_once 20 c7s).getD dflt).1.calls =
      c7s.calls ++ ([(⟨c7a, 0⟩ : RegEngine)] ++ (⟨c7boom, 1⟩ : RegEngine) ::
        [(⟨c7z, 2⟩ : RegEngine)]).map (fun re => TEv.stepCall re.spec.name) :=
  c7_isolated_step_failure 20 c7s [⟨c7a, 0⟩] [⟨c7z, 2⟩] ⟨c7boom, 1⟩ [] [] 5
    ((step_once 20 c7s).getD dflt)
    (by rfl) (by rfl) (by decide) (by decide) (by rfl) (by rfl) (by decide) (by rfl)

/-! ## C3 -/

def c3doom : EngineSpec := .mk "doom" 1 [] [Act.raiseErr 1] [Act.raiseErr 2]
def c3s : OState :=
  { init_state 10 true with engines := [⟨c3doom, 0⟩], nextIdx := 1, running := true }

/-- In strict mode, with the single registered engine raising from both
`step` and `on_shutdown`, every entry point of the failure-handling cycle
exhausts any amount of fuel: `_handle_engine_error` calls `stop()`, whose
`on_shutdown` failure re-enters `_handle_engine_error`, which calls
`stop()` again, without bound. -/
theorem c3_aux :
    ∀ (f : ℕ) (s : OState), s.strict = true → s.engines = [⟨c3doom, 0⟩] →
      (∀ (n : String) (c : ℕ), exec f (.handleErr n c) s = none) ∧
      exec f .stopReq s = none ∧
      exec f (.stopWalk [⟨c3doom, 0⟩]) s = none ∧
      exec f (.tickWalk [⟨c3doom, 0⟩]) s = none := by
  intro f
  induction f with
  | zero => intro s _ _; exact ⟨fun n c => rfl, rfl, rfl, rfl⟩
  | succ f ih =>
    intro s hst heng
    have hErr : ∀ (n : String) (c : ℕ), exec (f + 1) (.handleErr n c) s = none := by
      intro n c
      simp only [exec, hst]
      rw [(ih s hst heng).2.1]
      simp
    have hStop : exec (f + 1) .stopReq s = none := by
      have e1 : exec (f + 1) .stopReq s =
          exec f (.stopWalk s.engines) { s with running := false } := rfl
      rw [e1, heng]
      exact (ih { s with engines := [⟨c3doom, 0⟩], running := false } hst rfl).2.2.1
    have hStopW : exec (f + 1) (.stopWalk [⟨c3doom, 0⟩]) s = none := by
      cases f with
      | zero => rfl
      | succ g =>
        have e1 : exec (g + 1 + 1) (.stopWalk [⟨c3doom, 0⟩]) s =
            match exec (g + 1) (.handleErr "doom" 2)
                (logCall s (TEv.shutdownCall "doom")) with
            | none => none
            | some (s2, none) => exec (g + 1) (.stopWalk []) s2
            | some (s2, some c2) => some (s2, some c2) := rfl
        rw [e1, (ih (logCall s (TEv.shutdownCall "doom")) hst heng).1 "doom" 2]
    have hTickW : exec (f + 1) (.tickWalk [⟨c3doom, 0⟩]) s = none := by
      cases f with
      | zero => rfl
      | succ g =>
        have e1 : exec (g + 1 + 1) (.tickWalk [⟨c3doom, 0⟩]) s =
            match exec (g + 1) (.handleErr "doom" 1)
                (logCall s (TEv.stepCall "doom")) with
            | none => none
            | some (s2, none) => exec (g + 1) (.tickWalk []) s2
            | some (s2, some c2) => some (s2, some c2) := rfl
        rw [e1, (ih (logCall s (TEv.stepCall "doom")) hst heng).1 "doom" 1]
    exact ⟨hErr, hStop, hStopW, hTickW⟩

/-- C3 fails on the code (the code, not the claim, is at fault): with a
single registered component whose `step` raises and whose `on_shutdown`
always raises, in strict mode, `step_once` — and likewise a direct `stop()`
— never completes for any fuel bound: `_handle_engine_error` re-triggers a
nested `stop()` unconditionally, so the shutdown failure recurses without
bound (in Python, until `RecursionError`). -/
theorem c3_nested_stop_divergence :
    ∀ fuel : ℕ, step_once fuel c3s = none ∧ stop fuel c3s = none := by
  intro fuel
  constructor
  · cases fuel with
    | zero => rfl
    | succ f =>
      have e1 : step_once (f + 1) c3s =
          exec f (.tickWalk (advance c3s).engines) (advance c3s) := rfl
      rw [e1]
      exact (c3_aux f (advance c3s) rfl rfl).2.2.2
  · exact (c3_aux fuel c3s rfl rfl).2.1
